import Mathlib

/-!
Shallow embedding of the raster reinsertion engine
(`src/pipeline/reinsert.py`) of the llm-art-localization repository.

Modelling conventions:
* Python strings are `List Char`; `str.strip()` is `stripChars`,
  `str.split()` is `splitWords`.
* Pixel coordinates are `Int` (the engine's `int(v)` conversion is the
  identity on integral coordinates); a pixel is an RGBA quadruple of `Nat`.
* The Pillow image is a `Canvas`: a width, a height and a pixel map.
* Pillow's font measurement `draw.textbbox((0,0), text, font)[2]` is an
  abstract width measure `widthF : Nat → List Char → Int` (font size,
  text); the `"Ag"` probe height `draw.textbbox((0,0),"Ag",font)[3]` is an
  abstract `heightF : Nat → Int`.  `_load_font size` is represented by the
  size itself.
* The engine's Pillow paint calls (`draw.rectangle`, `draw.text`) are
  recorded as a trace of `Op` values; their pixel-level effect on the
  canvas is an abstract `applyOp : Canvas → Op → Canvas` (Pillow
  rasterization is external to the repository).
* Saving the output file (`img.convert("RGB").save`) is I/O outside the
  pixel computation and is not part of the model; the model returns the
  final canvas and the trace of paint operations.
-/

/-- An RGBA pixel, one `Nat` per channel. -/
abbrev Pixel := Nat × Nat × Nat × Nat

/-- An axis-aligned rectangle `(x0, y0, x1, y1)`. -/
abbrev Rect := Int × Int × Int × Int

/-- The mutable Pillow image: dimensions plus a pixel map. -/
structure Canvas where
  width : Int
  height : Int
  pix : Int → Int → Pixel

/-- `pipeline.extractor.TextBlock`, restricted to the two fields the
reinsertion engine reads (`page`, `confidence` and `element_id` are unused
by `reinsert_raster`). -/
structure TextBlock where
  text : List Char
  bounding_box : List Int

/-! ### Non-translatable classifier (`_NON_TRANSLATABLE` / `_is_non_translatable`)

The regex alternation `^(GUID | email | IP | numbers)$` of
`reinsert.py` lines 27-42, translated branch by branch into decidable
matchers over the stripped text. -/

/-- Python `str.strip()`: drop leading and trailing whitespace. -/
def stripChars (s : List Char) : List Char :=
  ((s.dropWhile Char.isWhitespace).reverse.dropWhile Char.isWhitespace).reverse

/-- `\w` of the Python regex (word character). -/
def isWordChar (c : Char) : Bool := c.isAlphanum || c = '_'

/-- A hexadecimal digit `[0-9a-fA-F]`. -/
def hexDigit (c : Char) : Bool :=
  c.isDigit || ('a' ≤ c && c ≤ 'f') || ('A' ≤ c && c ≤ 'F')

/-- Consume exactly `n` hexadecimal digits, returning the rest. -/
def hexChunk : Nat → List Char → Option (List Char)
  | 0, s => some s
  | _ + 1, [] => none
  | n + 1, c :: s => if hexDigit c then hexChunk n s else none

/-- Consume one expected character. -/
def expectChar (c : Char) : List Char → Option (List Char)
  | [] => none
  | d :: s => if d = c then some s else none

/-- Regex branch `[0-9a-fA-F]{8}-(4)-(4)-(4)-(12)`: a full GUID match. -/
def guidMatch (s : List Char) : Bool :=
  ((((((((hexChunk 8 s).bind (expectChar '-')).bind (hexChunk 4)).bind
    (expectChar '-')).bind (hexChunk 4)).bind (expectChar '-')).bind
    (hexChunk 4)).bind (expectChar '-')).bind (hexChunk 12) = some []

/-- Character class `[\w.+\-]` (local part of the email branch). -/
def isLocalChar (c : Char) : Bool := isWordChar c || c = '.' || c = '+' || c = '-'

/-- Character class `[\w.\-]` (domain part of the email branch). -/
def isDomainChar (c : Char) : Bool := isWordChar c || c = '.' || c = '-'

/-- Regex `[\w.\-]+\.\w+` matched against the whole of `b`: some dot
splits `b` into a nonempty `[\w.\-]+` part and a nonempty `\w+` part. -/
def emailDomainMatch (b : List Char) : Bool :=
  (List.range b.length).any fun i =>
    b.getD i ' ' = '.' && decide (0 < i) && (b.take i).all isDomainChar &&
      decide (i + 1 < b.length) && (b.drop (i + 1)).all isWordChar

/-- Regex branch `[\w.+\-]+@[\w.\-]+\.\w+` matched against the whole
string (neither side's class contains `@`, so the split at `@` is exact). -/
def emailMatch (s : List Char) : Bool :=
  (List.range s.length).any fun i =>
    s.getD i ' ' = '@' && decide (0 < i) && (s.take i).all isLocalChar &&
      emailDomainMatch (s.drop (i + 1))

/-- Length of the leading run of decimal digits, and the rest. -/
def digitSpan : List Char → Nat × List Char
  | [] => (0, [])
  | c :: cs =>
    if c.isDigit then
      let r := digitSpan cs
      (r.1 + 1, r.2)
    else (0, c :: cs)

/-- One `[\d]{1,3}\.` group of the IP branch: one to three digits then a
dot (the following character is never a digit, so the greedy count is the
full run). -/
def octetDot (s : List Char) : Option (List Char) :=
  let r := digitSpan s
  if 1 ≤ r.1 && r.1 ≤ 3 then expectChar '.' r.2 else none

/-- Regex branch `'?[\d]{1,3}\.[\d]{1,3}\.[\d]{1,3}\.[\d]{1,3}"?`: an
IPv4-like token with an optional leading apostrophe (`Char.ofNat 39`) and
optional trailing double quote (`Char.ofNat 34`). -/
def ipMatch (s : List Char) : Bool :=
  let s1 := match s with
    | c :: cs => if c = Char.ofNat 39 then cs else c :: cs
    | [] => []
  match (((octetDot s1).bind octetDot).bind octetDot) with
  | none => false
  | some r =>
    let t := digitSpan r
    (1 ≤ t.1 && t.1 ≤ 3) && (t.2 = [] || t.2 = [Char.ofNat 34])

/-- Character class `[\d\s.,\-+%:]` of the numbers/dates branch. -/
def isNumTokenChar (c : Char) : Bool :=
  c.isDigit || c.isWhitespace || c = '.' || c = ',' || c = '-' || c = '+' ||
    c = '%' || c = ':'

/-- Regex branch `[\d\s.,\-+%:]+`: one or more such characters. -/
def numericMatch (s : List Char) : Bool :=
  !s.isEmpty && s.all isNumTokenChar

/-- `_is_non_translatable(text)`: the stripped text fully matches one of
the four branches of `_NON_TRANSLATABLE`. -/
def is_non_translatable (text : List Char) : Bool :=
  let s := stripChars text
  guidMatch s || emailMatch s || ipMatch s || numericMatch s

/-! ### Geometry (`_polygon_to_rect` and the clamp of `_sample_background`) -/

/-- Elements at even indices (`polygon[0::2]`). -/
def evens : List Int → List Int
  | [] => []
  | [x] => [x]
  | x :: _ :: rest => x :: evens rest

/-- Elements at odd indices (`polygon[1::2]`). -/
def odds : List Int → List Int
  | [] => []
  | _ :: rest => evens rest

/-- Python `min` over a list (the engine only applies it to nonempty
lists; `0` stands in for the empty case it never reaches). -/
def listMin : List Int → Int
  | [] => 0
  | x :: xs => xs.foldl min x

/-- Python `max` over a list. -/
def listMax : List Int → Int
  | [] => 0
  | x :: xs => xs.foldl max x

/-- `_polygon_to_rect(polygon)`: the axis-aligned envelope
`(min xs, min ys, max xs, max ys)`. -/
def polygon_to_rect (polygon : List Int) : Rect :=
  (listMin (evens polygon), listMin (odds polygon),
   listMax (evens polygon), listMax (odds polygon))

/-- The clamp of `_sample_background` lines 177-179: `x0,y0` to `≥ 0` and
`x1,y1` to `≤ width,height` (the spec's `clipToCanvas`). -/
def clipToCanvas (r : Rect) (w h : Int) : Rect :=
  (max 0 r.1, max 0 r.2.1, min w r.2.2.1, min h r.2.2.2)

/-! ### Background estimator (`_sample_background`) -/

/-- `sorted(channel)[len(channel) // 2]` as the code computes it. -/
def codeMedian (l : List Nat) : Nat :=
  (l.mergeSort (fun a b => decide (a ≤ b))).getD (l.length / 2) 0

/-- `_sample_background(img, rect)`: clamp the rectangle to the canvas,
answer opaque white for a degenerate result, otherwise take the per-channel
median of the ≤4×4 corner window (outer loop `px`, inner loop `py`). -/
def sample_background (img : Canvas) (rect : Rect) : Pixel :=
  let x0 := max 0 rect.1
  let y0 := max 0 rect.2.1
  let x1 := min img.width rect.2.2.1
  let y1 := min img.height rect.2.2.2
  if x1 ≤ x0 ∨ y1 ≤ y0 then (255, 255, 255, 255)
  else
    let sw := min (x1 - x0) 4
    let sh := min (y1 - y0) 4
    let pixels := (List.range sw.toNat).flatMap fun (px : Nat) =>
      (List.range sh.toNat).map fun (py : Nat) =>
        img.pix (x0 + (px : Int)) (y0 + (py : Int))
    (codeMedian (pixels.map fun p => p.1),
     codeMedian (pixels.map fun p => p.2.1),
     codeMedian (pixels.map fun p => p.2.2.1),
     codeMedian (pixels.map fun p => p.2.2.2))

/-- Spec-side median: the middle element of the insertion-sorted list. -/
def medianSpec (l : List Nat) : Nat :=
  (l.insertionSort (· ≤ ·)).getD (l.length / 2) 0

/-- Spec-side sample window: the pixels of the up-to-4×4 window anchored
at the top-left corner of the clipped rectangle. -/
def cornerSample (img : Canvas) (rect : Rect) : List Pixel :=
  let c := clipToCanvas rect img.width img.height
  ((List.range (min 4 (c.2.2.1 - c.1)).toNat).map fun (i : Nat) =>
    (List.range (min 4 (c.2.2.2 - c.2.1)).toNat).map fun (j : Nat) =>
      img.pix (c.1 + (i : Int)) (c.2.1 + (j : Int))).flatten

/-! ### Text fitter (`_fit_text` and `_wrap_text`) -/

/-- Python `text.split()`: split on whitespace runs, dropping empty
pieces; `acc` holds the current word reversed. -/
def splitWordsAux : List Char → List Char → List (List Char)
  | [], acc => if acc = [] then [] else [acc.reverse]
  | c :: cs, acc =>
    if c.isWhitespace then
      if acc = [] then splitWordsAux cs []
      else acc.reverse :: splitWordsAux cs []
    else splitWordsAux cs (c :: acc)

/-- Python `text.split()`. -/
def splitWords (s : List Char) : List (List Char) := splitWordsAux s []

/-- The word loop of `_wrap_text`: `candidate = (current + " " + word).strip()`;
a fitting candidate extends the current line, otherwise the current line is
flushed (when nonempty) and the word starts a new line. -/
def wrapAux (widthF : List Char → Int) (maxW : Int) :
    List (List Char) → List Char → List (List Char)
  | [], current => if current = [] then [] else [current]
  | w :: ws, current =>
    let candidate := stripChars (current ++ ' ' :: w)
    if widthF candidate ≤ maxW then wrapAux widthF maxW ws candidate
    else if current = [] then wrapAux widthF maxW ws w
    else current :: wrapAux widthF maxW ws w

/-- `_wrap_text(draw, text, font, max_width)` with the font's measure
fixed as `widthF`. -/
def wrap_text (widthF : List Char → Int) (text : List Char) (maxW : Int) :
    List (List Char) :=
  let words := splitWords text
  if words = [] then [text]
  else
    let lines := wrapAux widthF maxW words []
    if lines = [] then [text] else lines

/-- `range(default_size, min_size - 1, -1)` for the defaults 13 and 7. -/
def sizeCandidates : List Nat := [13, 12, 11, 10, 9, 8, 7]

/-- `_fit_text(draw, text, rect)`: step the size down from 13 to 7 and
return the first size whose full-string width fits `maxW = max 1 (x1-x0)`
on the single line `[text]`; otherwise wrap at size 7. -/
def fit_text (widthF : Nat → List Char → Int) (text : List Char)
    (rect : Rect) : Nat × List (List Char) :=
  let maxW : Int := max 1 (rect.2.2.1 - rect.1)
  match sizeCandidates.find? (fun s => decide (widthF s text ≤ maxW)) with
  | some s => (s, [text])
  | none => (7, wrap_text (widthF 7) text maxW)

/-! ### Reinsertion engine (`reinsert_raster`) -/

/-- One Pillow paint call issued by the engine. -/
inductive Op where
  | fillRect (rect : Rect) (color : Pixel)
  | drawText (pos : Int × Int) (content : List Char) (color : Pixel) (size : Nat)
deriving DecidableEq

/-- The line loop of `reinsert_raster` lines 81-85: draw each line at
`(x, y)` in opaque black, advancing `y` by the line height. -/
def drawLines (x : Int) (lineHeight : Int) (size : Nat) :
    Int → List (List Char) → List Op
  | _, [] => []
  | y, line :: rest =>
    Op.drawText (x, y) line (0, 0, 0, 255) size ::
      drawLines x lineHeight size (y + lineHeight) rest

/-- The body of the region loop of `reinsert_raster` for one
`(src, tgt)` pair: the paint calls it issues (none when the polygon has
fewer than 4 coordinates or the source text is non-translatable). -/
def processBlock (widthF : Nat → List Char → Int) (heightF : Nat → Int)
    (img : Canvas) (src tgt : TextBlock) : List Op :=
  if src.bounding_box.length < 4 then []
  else if is_non_translatable src.text then []
  else
    let rect := polygon_to_rect src.bounding_box
    let bg := sample_background img rect
    let fit := fit_text widthF tgt.text rect
    let lineHeight := heightF fit.1 + 1
    Op.fillRect rect bg :: drawLines rect.1 lineHeight fit.1 rect.2.1 fit.2

/-- The region loop: issue each pair's paint calls, apply them to the
canvas through the abstract rasterizer `applyOp`, and continue. -/
def runBlocks (widthF : Nat → List Char → Int) (heightF : Nat → Int)
    (applyOp : Canvas → Op → Canvas) :
    Canvas → List (TextBlock × TextBlock) → Canvas × List Op
  | img, [] => (img, [])
  | img, (src, tgt) :: rest =>
    let ops := processBlock widthF heightF img src tgt
    let img2 := ops.foldl applyOp img
    let r := runBlocks widthF heightF applyOp img2 rest
    (r.1, ops ++ r.2)

/-- `reinsert_raster`: iterate `zip(source_blocks, translated_blocks)`
over the loaded canvas; the result is the final canvas and the trace of
paint calls (the file save is I/O outside the model). -/
def reinsert_raster (widthF : Nat → List Char → Int) (heightF : Nat → Int)
    (applyOp : Canvas → Op → Canvas) (img : Canvas)
    (source_blocks translated_blocks : List TextBlock) : Canvas × List Op :=
  runBlocks widthF heightF applyOp img (source_blocks.zip translated_blocks)

/-! ### Concrete instances used by witnesses and counterexamples -/

/-- A 200×60 uniform dark canvas. -/
def testCanvas : Canvas := ⟨200, 60, fun _ _ => (7, 7, 7, 255)⟩

/-- A width measure: every character is one unit wide at every size. -/
def lenWidth : Nat → List Char → Int := fun _ t => (t.length : Int)

/-- A probe height measure: ten units at every size. -/
def tenHeight : Nat → Int := fun _ => 10

/-- A rasterizer that leaves the canvas unchanged. -/
def keepCanvas : Canvas → Op → Canvas := fun c _ => c

/-- A source region whose polygon collapses to the zero-width rectangle
`(10, 10, 10, 30)`. -/
def degSrc : TextBlock := ⟨"Save".data, [10, 10, 10, 30]⟩

/-- The paired translated region. -/
def degTgt : TextBlock := ⟨"Salva".data, [10, 10, 10, 30]⟩

/-- A region whose polygon has fewer than 2 point pairs. -/
def shortPolyBlock : TextBlock := ⟨"Hi".data, [1, 2]⟩

/-! ### Claim theorems: geometry, skipping, trace colors -/

/-- C7: clipping a rectangle to the canvas is idempotent: applying the
clamp (`x0,y0` to `≥ 0`, `x1,y1` to `≤ w,h`) twice gives the same result
as applying it once, for every rectangle and canvas size. -/
theorem clipToCanvas_idem (r : Rect) (w h : Int) :
    clipToCanvas (clipToCanvas r w h) w h = clipToCanvas r w h := by
  obtain ⟨x0, y0, x1, y1⟩ := r
  simp only [clipToCanvas, Prod.mk.injEq]
  refine ⟨?_, ?_, ?_, ?_⟩ <;> omega

/-- `List.zip` only reaches the first `min` length of each list. -/
theorem zip_eq_zip_take {α β : Type} :
    ∀ (a : List α) (b : List β),
      a.zip b = (a.take (min a.length b.length)).zip (b.take (min a.length b.length))
  | [], _ => by simp
  | _ :: _, [] => by simp
  | x :: a, y :: b => by
    simp only [List.length_cons, Nat.succ_min_succ, List.take_succ_cons,
      List.zip_cons_cons, List.cons.injEq, true_and]
    exact zip_eq_zip_take a b

/-- C9: with source and translated lists of different lengths,
`reinsert_raster` raises no error: it processes exactly the first
`min(len(sourceRegions), len(translatedRegions))` positional pairs and
still produces the output image. -/
theorem reinsert_zip_truncates (widthF : Nat → List Char → Int)
    (heightF : Nat → Int) (applyOp : Canvas → Op → Canvas) (img : Canvas)
    (src tgt : List TextBlock) :
    reinsert_raster widthF heightF applyOp img src tgt =
      reinsert_raster widthF heightF applyOp img
        (src.take (min src.length tgt.length))
        (tgt.take (min src.length tgt.length)) := by
  unfold reinsert_raster
  rw [← zip_eq_zip_take]

/-- C2: a region whose source text matches the non-translatable patterns
issues no paint call at all (neither background fill nor text draw), so the
canvas state entering the next region is untouched; and the four sample
strings all match. -/
theorem nonTranslatable_region_untouched (widthF : Nat → List Char → Int)
    (heightF : Nat → Int) (applyOp : Canvas → Op → Canvas) (img : Canvas)
    (src tgt : TextBlock) (rest : List (TextBlock × TextBlock))
    (h : is_non_translatable src.text = true) :
    processBlock widthF heightF img src tgt = []
      ∧ runBlocks widthF heightF applyOp img ((src, tgt) :: rest) =
          runBlocks widthF heightF applyOp img rest
      ∧ is_non_translatable "123-456-7890".data = true
      ∧ is_non_translatable "a@b.com".data = true
      ∧ is_non_translatable "550e8400-e29b-41d4-a716-446655440000".data = true
      ∧ is_non_translatable "12.5%".data = true := by
  have hp : processBlock widthF heightF img src tgt = [] := by
    unfold processBlock
    split
    · rfl
    · simp [h]
  refine ⟨hp, ?_, by decide, by decide, by decide, by decide⟩
  simp [runBlocks, hp]

/-- Witness for C2 at a concrete region whose source text is an email. -/
theorem nonTranslatable_region_untouched_witness :
    is_non_translatable ("a@b.com".data) = true
      ∧ processBlock lenWidth tenHeight testCanvas ⟨"a@b.com".data, [10, 10, 90, 30]⟩
          ⟨"x".data, [10, 10, 90, 30]⟩ = [] :=
  ⟨by decide,
   (nonTranslatable_region_untouched lenWidth tenHeight keepCanvas testCanvas
      ⟨"a@b.com".data, [10, 10, 90, 30]⟩ ⟨"x".data, [10, 10, 90, 30]⟩ []
      (by decide)).1⟩

/-- C8: a region whose polygon has fewer than 2 point pairs is skipped
without any paint call, and the remaining regions are processed exactly as
if it were absent — it never aborts the image. -/
theorem malformed_region_skipped (widthF : Nat → List Char → Int)
    (heightF : Nat → Int) (applyOp : Canvas → Op → Canvas) (img : Canvas)
    (before after : List (TextBlock × TextBlock)) (bad tgt : TextBlock)
    (h : bad.bounding_box.length < 4) :
    runBlocks widthF heightF applyOp img (before ++ (bad, tgt) :: after) =
      runBlocks widthF heightF applyOp img (before ++ after) := by
  induction before generalizing img with
  | nil =>
    have hp : processBlock widthF heightF img bad tgt = [] := by
      unfold processBlock
      simp [h]
    simp [runBlocks, hp]
  | cons p rest ih =>
    obtain ⟨s, t⟩ := p
    simp only [List.cons_append, runBlocks, List.append_eq]
    rw [ih]

/-- Witness for C8: a 2-coordinate polygon in a singleton list. -/
theorem malformed_region_skipped_witness :
    runBlocks lenWidth tenHeight keepCanvas testCanvas
        ([] ++ (shortPolyBlock, degTgt) :: []) =
      runBlocks lenWidth tenHeight keepCanvas testCanvas ([] ++ []) :=
  malformed_region_skipped lenWidth tenHeight keepCanvas testCanvas [] []
    shortPolyBlock degTgt (by decide)

/-- Every op emitted by the line loop is a `drawText` in opaque black at
the loop's font size. -/
theorem drawLines_mem (x lh : Int) (s : Nat) :
    ∀ (y : Int) (lines : List (List Char)) (op : Op),
      op ∈ drawLines x lh s y lines →
      ∃ pos content, op = Op.drawText pos content (0, 0, 0, 255) s := by
  intro y lines
  induction lines generalizing y with
  | nil => intro op hop; simp [drawLines] at hop
  | cons l rest ih =>
    intro op hop
    simp only [drawLines, List.mem_cons] at hop
    rcases hop with hop | hop
    · exact ⟨(x, y), l, hop⟩
    · exact ih _ op hop

/-- C10: every text line the engine draws is painted in opaque black
`(0,0,0,255)`, whatever the sampled background or canvas content. -/
theorem drawn_text_always_black (widthF : Nat → List Char → Int)
    (heightF : Nat → Int) (applyOp : Canvas → Op → Canvas) (img : Canvas)
    (blocks : List (TextBlock × TextBlock)) (pos : Int × Int)
    (content : List Char) (c : Pixel) (s : Nat)
    (h : Op.drawText pos content c s ∈
        (runBlocks widthF heightF applyOp img blocks).2) :
    c = (0, 0, 0, 255) := by
  induction blocks generalizing img with
  | nil => simp [runBlocks] at h
  | cons pr rest ih =>
    obtain ⟨src, tgt⟩ := pr
    simp only [runBlocks, List.mem_append] at h
    rcases h with h | h
    · unfold processBlock at h
      split at h
      · simp at h
      · split at h
        · simp at h
        · simp only [List.mem_cons] at h
          rcases h with h | h
          · exact absurd h (by simp)
          · obtain ⟨p2, c2, heq⟩ := drawLines_mem _ _ _ _ _ _ h
            simp only [Op.drawText.injEq] at heq
            exact heq.2.2.1
    · exact ih _ h

/-- Witness for C10: the black draw op of a concrete run. -/
theorem drawn_text_always_black_witness :
    Op.drawText (10, 10) "Salva".data (0, 0, 0, 255) 7 ∈
        (runBlocks lenWidth tenHeight keepCanvas testCanvas
          [(degSrc, degTgt)]).2
      ∧ ((0, 0, 0, 255) : Pixel) = (0, 0, 0, 255) :=
  ⟨by decide,
   drawn_text_always_black lenWidth tenHeight keepCanvas testCanvas
     [(degSrc, degTgt)] (10, 10) "Salva".data (0, 0, 0, 255) 7 (by decide)⟩

/-! ### Claim C1: degenerate rectangles -/

/-- `_wrap_text` never returns zero lines. -/
theorem wrap_text_ne_nil (widthF : List Char → Int) (text : List Char)
    (maxW : Int) : wrap_text widthF text maxW ≠ [] := by
  simp only [wrap_text]
  split
  · exact List.cons_ne_nil _ _
  · split
    · exact List.cons_ne_nil _ _
    · assumption

/-- `_fit_text` never returns zero lines. -/
theorem fit_text_snd_ne_nil (widthF : Nat → List Char → Int)
    (text : List Char) (rect : Rect) : (fit_text widthF text rect).2 ≠ [] := by
  simp only [fit_text]
  split
  · exact List.cons_ne_nil _ _
  · exact wrap_text_ne_nil _ _ _

/-- Counterexample to C1: the concrete region `degSrc` (polygon
`[10,10,10,30]`, a zero-width rectangle, degenerate after clipping to the
200×60 canvas) still makes the engine issue the background-fill paint and
a glyph draw — it does not skip them. -/
theorem degenerate_rect_paint_cex :
    ((clipToCanvas (polygon_to_rect degSrc.bounding_box) testCanvas.width
          testCanvas.height).2.2.1 ≤
        (clipToCanvas (polygon_to_rect degSrc.bounding_box) testCanvas.width
          testCanvas.height).1)
      ∧ processBlock lenWidth tenHeight testCanvas degSrc degTgt =
          [Op.fillRect (10, 10, 10, 30) (255, 255, 255, 255),
           Op.drawText (10, 10) "Salva".data (0, 0, 0, 255) 7] := by
  exact ⟨by decide, by decide⟩

/-- C1 (amended): for a region whose rectangle is degenerate after
clipping, the engine does use the opaque-white background fallback and
keeps processing (no abort), but — contrary to the claim — it still issues
the background-fill paint (with white, over the unclipped rectangle) and
still issues glyph draws for the translated text. -/
theorem degenerate_rect_fallback_still_paints (widthF : Nat → List Char → Int)
    (heightF : Nat → Int) (img : Canvas) (src tgt : TextBlock)
    (hlen : 4 ≤ src.bounding_box.length)
    (hnt : is_non_translatable src.text = false)
    (hdeg : (clipToCanvas (polygon_to_rect src.bounding_box) img.width
          img.height).2.2.1 ≤
        (clipToCanvas (polygon_to_rect src.bounding_box) img.width
          img.height).1 ∨
      (clipToCanvas (polygon_to_rect src.bounding_box) img.width
          img.height).2.2.2 ≤
        (clipToCanvas (polygon_to_rect src.bounding_box) img.width
          img.height).2.1) :
    sample_background img (polygon_to_rect src.bounding_box) = (255, 255, 255, 255)
      ∧ processBlock widthF heightF img src tgt =
          Op.fillRect (polygon_to_rect src.bounding_box) (255, 255, 255, 255) ::
            drawLines (polygon_to_rect src.bounding_box).1
              (heightF (fit_text widthF tgt.text (polygon_to_rect src.bounding_box)).1 + 1)
              (fit_text widthF tgt.text (polygon_to_rect src.bounding_box)).1
              (polygon_to_rect src.bounding_box).2.1
              (fit_text widthF tgt.text (polygon_to_rect src.bounding_box)).2
      ∧ processBlock widthF heightF img src tgt ≠ []
      ∧ ∃ pos content,
          Op.drawText pos content (0, 0, 0, 255)
              (fit_text widthF tgt.text (polygon_to_rect src.bounding_box)).1 ∈
            processBlock widthF heightF img src tgt := by
  have hdeg' : min img.width (polygon_to_rect src.bounding_box).2.2.1 ≤
      max 0 (polygon_to_rect src.bounding_box).1 ∨
      min img.height (polygon_to_rect src.bounding_box).2.2.2 ≤
      max 0 (polygon_to_rect src.bounding_box).2.1 := by
    simpa [clipToCanvas] using hdeg
  have hsb : sample_background img (polygon_to_rect src.bounding_box) =
      (255, 255, 255, 255) := by
    unfold sample_background
    rw [if_pos hdeg']
  have hp : processBlock widthF heightF img src tgt =
      Op.fillRect (polygon_to_rect src.bounding_box) (255, 255, 255, 255) ::
        drawLines (polygon_to_rect src.bounding_box).1
          (heightF (fit_text widthF tgt.text (polygon_to_rect src.bounding_box)).1 + 1)
          (fit_text widthF tgt.text (polygon_to_rect src.bounding_box)).1
          (polygon_to_rect src.bounding_box).2.1
          (fit_text widthF tgt.text (polygon_to_rect src.bounding_box)).2 := by
    simp only [processBlock]
    rw [if_neg (by omega), if_neg (by simp [hnt]), hsb]
  refine ⟨hsb, hp, by rw [hp]; exact List.cons_ne_nil _ _, ?_⟩
  obtain ⟨l, rest, hl⟩ :=
    List.exists_cons_of_ne_nil
      (fit_text_snd_ne_nil widthF tgt.text (polygon_to_rect src.bounding_box))
  refine ⟨((polygon_to_rect src.bounding_box).1,
    (polygon_to_rect src.bounding_box).2.1), l, ?_⟩
  rw [hp, hl]
  simp [drawLines]

/-- Witness for C1 (amended) at the concrete degenerate region. -/
theorem degenerate_rect_fallback_witness :
    sample_background testCanvas (polygon_to_rect degSrc.bounding_box) =
      (255, 255, 255, 255) :=
  (degenerate_rect_fallback_still_paints lenWidth tenHeight testCanvas degSrc
    degTgt (by decide) (by decide) (by decide)).1

/-! ### Claims C3 and C6: the size-selection loop of `_fit_text` -/

/-- On a strictly descending list, `find?` returns a member that satisfies
the predicate while every larger member fails it; `none` means every member
fails it. -/
theorem find?_desc (p : Nat → Bool) :
    ∀ l : List Nat, l.Pairwise (· > ·) →
      (∀ v, l.find? p = some v →
        v ∈ l ∧ p v = true ∧ ∀ s ∈ l, v < s → p s = false)
      ∧ (l.find? p = none → ∀ s ∈ l, p s = false) := by
  intro l
  induction l with
  | nil =>
    intro _
    refine ⟨fun v hv => by simp at hv, fun _ s hs => by simp at hs⟩
  | cons a t ih =>
    intro hl
    obtain ⟨hat, hl'⟩ := List.pairwise_cons.mp hl
    obtain ⟨ihs, ihn⟩ := ih hl'
    cases hpa : p a with
    | true =>
      constructor
      · intro v hv
        rw [List.find?_cons_of_pos _ hpa] at hv
        obtain rfl : a = v := by injection hv
        refine ⟨List.mem_cons_self _ _, hpa, ?_⟩
        intro s hs hlt
        rcases List.mem_cons.mp hs with rfl | hs
        · omega
        · exact absurd hlt (by have := hat s hs; omega)
      · intro hv
        rw [List.find?_cons_of_pos _ hpa] at hv
        exact absurd hv (by simp)
    | false =>
      have hneg : ¬ p a = true := by simp [hpa]
      constructor
      · intro v hv
        rw [List.find?_cons_of_neg _ hneg] at hv
        obtain ⟨hm, hp, hrest⟩ := ihs v hv
        refine ⟨List.mem_cons_of_mem _ hm, hp, ?_⟩
        intro s hs hlt
        rcases List.mem_cons.mp hs with rfl | hs
        · exact hpa
        · exact hrest s hs hlt
      · intro hv
        rw [List.find?_cons_of_neg _ hneg] at hv
        intro s hs
        rcases List.mem_cons.mp hs with rfl | hs
        · exact hpa
        · exact ihn hv s hs
    

/-- Membership in the size stepping list is exactly the interval 7..13. -/
theorem mem_sizeCandidates (s : Nat) : s ∈ sizeCandidates ↔ 7 ≤ s ∧ s ≤ 13 := by
  simp only [sizeCandidates, List.mem_cons, List.not_mem_nil, or_false]
  omega

/-- C3: for every string and rectangle, `_fit_text` computes
`maxW = max 1 (x1-x0)` — the y-coordinates never influence the result —
and either returns the first (largest) size in 13,12,...,7 whose rendered
width fits `maxW` together with the single line `[text]`, or, when no size
down to 7 fits, falls back to size 7 with the wrapped line list; there is
no other outcome. -/
theorem fit_text_size_selection (widthF : Nat → List Char → Int)
    (text : List Char) (x0 y0 x1 y1 : Int) :
    ((∃ s, fit_text widthF text (x0, y0, x1, y1) = (s, [text]) ∧
        7 ≤ s ∧ s ≤ 13 ∧ widthF s text ≤ max 1 (x1 - x0) ∧
        ∀ t, s < t → t ≤ 13 → max 1 (x1 - x0) < widthF t text)
      ∨ (fit_text widthF text (x0, y0, x1, y1) =
            (7, wrap_text (widthF 7) text (max 1 (x1 - x0))) ∧
          ∀ t, 7 ≤ t → t ≤ 13 → max 1 (x1 - x0) < widthF t text))
    ∧ ∀ y2 y3, fit_text widthF text (x0, y2, x1, y3) =
        fit_text widthF text (x0, y0, x1, y1) := by
  have hpw : sizeCandidates.Pairwise (· > ·) := by decide
  obtain ⟨hsome, hnone⟩ :=
    find?_desc (fun s => decide (widthF s text ≤ max 1 (x1 - x0)))
      sizeCandidates hpw
  constructor
  · simp only [fit_text]
    cases hf : sizeCandidates.find?
        (fun s => decide (widthF s text ≤ max 1 (x1 - x0))) with
    | some s =>
      left
      obtain ⟨hm, hp, hrest⟩ := hsome s hf
      obtain ⟨h7, h13⟩ := (mem_sizeCandidates s).mp hm
      refine ⟨s, rfl, h7, h13, by simpa using hp, ?_⟩
      intro t hst ht13
      have ht : t ∈ sizeCandidates := (mem_sizeCandidates t).mpr ⟨by omega, ht13⟩
      have := hrest t ht hst
      simpa using this
    | none =>
      right
      refine ⟨rfl, ?_⟩
      intro t h7 h13
      have ht : t ∈ sizeCandidates := (mem_sizeCandidates t).mpr ⟨h7, h13⟩
      have := hnone hf t ht
      simpa using this
  · intro y2 y3
    rfl

/-- The size `_fit_text` returns never goes below the minimum size 7. -/
theorem fit_text_fst_ge (widthF : Nat → List Char → Int) (text : List Char)
    (rect : Rect) : 7 ≤ (fit_text widthF text rect).1 := by
  simp only [fit_text]
  cases hf : sizeCandidates.find?
      (fun s => decide (widthF s text ≤ max 1 (rect.2.2.1 - rect.1))) with
  | some s =>
    have hm := List.mem_of_find?_eq_some hf
    exact ((mem_sizeCandidates s).mp hm).1
  | none => exact le_refl 7

/-- When `p` implies `q`, the first hit of `q` on a descending list comes
no later — hence is no smaller — than the first hit of `p`. -/
theorem find?_mono_desc (p q : Nat → Bool) (himp : ∀ x, p x = true → q x = true) :
    ∀ l : List Nat, l.Pairwise (· ≥ ·) → ∀ v, l.find? p = some v →
      ∃ w, l.find? q = some w ∧ v ≤ w := by
  intro l
  induction l with
  | nil => intro _ v hv; simp at hv
  | cons a t ih =>
    intro hl v hv
    obtain ⟨hat, hl'⟩ := List.pairwise_cons.mp hl
    cases hqa : q a with
    | true =>
      refine ⟨a, List.find?_cons_of_pos _ hqa, ?_⟩
      have hvmem := List.mem_of_find?_eq_some hv
      rcases List.mem_cons.mp hvmem with rfl | hm
      · exact le_refl v
      · exact hat v hm
    | false =>
      have hpa : p a = false := by
        cases hpa : p a
        · rfl
        · exact absurd (himp a hpa) (by simp [hqa])
      rw [List.find?_cons_of_neg _ (by simp [hpa])] at hv
      rw [List.find?_cons_of_neg _ (by simp [hqa])]
      exact ih hl' v hv

/-- C6: with a width measure that is monotone under string extension, the
single-line font size `_fit_text` chooses for a prefix `A` is at least the
size it chooses for the extension `B` (fixed rectangle). -/
theorem fit_text_size_mono (widthF : Nat → List Char → Int) (A B : List Char)
    (rect : Rect) (_hA : A ≠ []) (_hB : B ≠ [])
    (hpre : ∃ u, A ++ u = B)
    (hmono : ∀ s a b, (∃ u, a ++ u = b) → widthF s a ≤ widthF s b) :
    (fit_text widthF B rect).1 ≤ (fit_text widthF A rect).1 := by
  have himp : ∀ x,
      (fun s => decide (widthF s B ≤ max 1 (rect.2.2.1 - rect.1))) x = true →
      (fun s => decide (widthF s A ≤ max 1 (rect.2.2.1 - rect.1))) x = true := by
    intro x hx
    simp only [decide_eq_true_eq] at hx ⊢
    exact le_trans (hmono x A B hpre) hx
  have hpw : sizeCandidates.Pairwise (· ≥ ·) := by decide
  have h7 := fit_text_fst_ge widthF A rect
  conv_lhs => simp only [fit_text]
  cases hf : sizeCandidates.find?
      (fun s => decide (widthF s B ≤ max 1 (rect.2.2.1 - rect.1))) with
  | some v =>
    obtain ⟨w, hw, hvw⟩ := find?_mono_desc _ _ himp sizeCandidates hpw v hf
    have hAw : (fit_text widthF A rect).1 = w := by
      simp only [fit_text]
      rw [hw]
    rw [hAw]
    exact hvw
  | none =>
    exact h7

/-- Witness for C6 with the unit-per-character width measure, `A = "a"`,
`B = "ab"` and rectangle width 1. -/
theorem fit_text_size_mono_witness :
    (fit_text lenWidth "ab".data (0, 0, 1, 5)).1 ≤
      (fit_text lenWidth "a".data (0, 0, 1, 5)).1 :=
  fit_text_size_mono lenWidth "a".data "ab".data (0, 0, 1, 5) (by decide)
    (by decide) ⟨"b".data, by decide⟩
    (by
      intro s a b h
      obtain ⟨u, hu⟩ := h
      subst hu
      simp only [lenWidth, List.length_append, Nat.cast_add]
      omega)

/-! ### Claim C5: wrap coverage (`_wrap_text`) -/

/-- `splitWords []` has no words. -/
theorem splitWords_nil : splitWords [] = [] := rfl

/-- The head of a list is a member. -/
theorem mem_of_head?_eq {α : Type} {l : List α} {a : α}
    (h : l.head? = some a) : a ∈ l := by
  cases l with
  | nil => simp at h
  | cons x t =>
    simp only [List.head?_cons, Option.some.injEq] at h
    subst h
    exact List.mem_cons_self x t

/-- The last element of a list is a member. -/
theorem mem_of_getLast?_eq {α : Type} {l : List α} {a : α}
    (h : l.getLast? = some a) : a ∈ l := by
  have : a ∈ l.reverse := mem_of_head?_eq (by rwa [List.head?_reverse])
  simpa using this

/-- `dropWhile` is the identity when the head (if any) fails the predicate. -/
theorem dropWhile_eq_self_of_head (p : Char → Bool) (l : List Char)
    (h : ∀ c, l.head? = some c → p c = false) : l.dropWhile p = l := by
  cases l with
  | nil => rfl
  | cons a t =>
    rw [List.dropWhile_cons, if_neg (by simp [h a rfl])]

/-- `str.strip()` is the identity on a string whose first and last
characters are not whitespace. -/
theorem stripChars_eq_self (l : List Char)
    (h1 : ∀ c, l.head? = some c → c.isWhitespace = false)
    (h2 : ∀ c, l.getLast? = some c → c.isWhitespace = false) :
    stripChars l = l := by
  unfold stripChars
  rw [dropWhile_eq_self_of_head _ l h1,
    dropWhile_eq_self_of_head _ l.reverse
      (by intro c hc; exact h2 c (by rwa [List.head?_reverse] at hc)),
    List.reverse_reverse]

/-- Stripping swallows a leading space. -/
theorem stripChars_space_cons (w : List Char) :
    stripChars (' ' :: w) = stripChars w := by
  unfold stripChars
  rw [List.dropWhile_cons, if_pos (by decide)]

/-- Splitting distributes over a whitespace separator. -/
theorem splitWordsAux_append (b : List Char) (c : Char)
    (hc : c.isWhitespace = true) :
    ∀ (a acc : List Char),
      splitWordsAux (a ++ c :: b) acc = splitWordsAux a acc ++ splitWordsAux b [] := by
  intro a
  induction a with
  | nil =>
    intro acc
    simp only [List.nil_append, splitWordsAux, hc, if_true]
    split <;> simp
  | cons x a ih =>
    intro acc
    simp only [List.cons_append, splitWordsAux]
    by_cases hx : x.isWhitespace
    · simp only [hx, if_true]
      by_cases hacc : acc = []
      · simp [hacc, ih]
      · simp [hacc, ih]
    · simp [hx, ih]

/-- A nonempty whitespace-free string splits into itself alone. -/
theorem splitWordsAux_word (w : List Char)
    (hw : ∀ c ∈ w, c.isWhitespace = false) :
    ∀ acc : List Char, w ≠ [] ∨ acc ≠ [] →
      splitWordsAux w acc = [acc.reverse ++ w] := by
  induction w with
  | nil =>
    intro acc hne
    rcases hne with h | h
    · exact absurd rfl h
    · simp [splitWordsAux, h]
  | cons c cs ih =>
    intro acc _
    have hc : c.isWhitespace = false := hw c (List.mem_cons_self c cs)
    have hcs : ∀ x ∈ cs, x.isWhitespace = false :=
      fun x hx => hw x (List.mem_cons_of_mem c hx)
    simp only [splitWordsAux, hc, Bool.false_eq_true, if_false]
    rw [ih hcs (c :: acc) (Or.inr (List.cons_ne_nil c acc))]
    simp

/-- A nonempty whitespace-free string is a single word. -/
theorem splitWords_word (w : List Char) (hne : w ≠ [])
    (hw : ∀ c ∈ w, c.isWhitespace = false) : splitWords w = [w] := by
  unfold splitWords
  rw [splitWordsAux_word w hw [] (Or.inl hne)]
  simp

/-- Every word produced by `str.split()` is nonempty and whitespace-free. -/
theorem splitWords_goodWords :
    ∀ (s acc : List Char), (∀ c ∈ acc, c.isWhitespace = false) →
      ∀ w ∈ splitWordsAux s acc, w ≠ [] ∧ ∀ c ∈ w, c.isWhitespace = false := by
  intro s
  induction s with
  | nil =>
    intro acc hacc w hw
    simp only [splitWordsAux] at hw
    split at hw
    · simp at hw
    · next hne =>
      simp only [List.mem_singleton] at hw
      subst hw
      exact ⟨by simpa using hne, by intro c hc; exact hacc c (by simpa using hc)⟩
  | cons c cs ih =>
    intro acc hacc w hw
    simp only [splitWordsAux] at hw
    split at hw
    · split at hw
      · exact ih [] (by simp) w hw
      · next hne =>
        rcases List.mem_cons.mp hw with rfl | hw'
        · exact ⟨by simpa using hne, by intro x hx; exact hacc x (by simpa using hx)⟩
        · exact ih [] (by simp) w hw'
    · next hcws =>
      refine ih (c :: acc) ?_ w hw
      intro x hx
      rcases List.mem_cons.mp hx with rfl | hx'
      · simpa using hcws
      · exact hacc x hx'

/-- Joining the words of the lines `_wrap_text`'s loop produces, starting
from word list `ws` and current line `cur`, yields the words of `cur`
followed by `ws` — no word lost, duplicated or split. -/
theorem wrapAux_words (widthF : List Char → Int) (maxW : Int) :
    ∀ (ws : List (List Char)) (cur : List Char),
      (∀ w ∈ ws, w ≠ [] ∧ ∀ c ∈ w, c.isWhitespace = false) →
      (cur = [] ∨ ((∀ c, cur.head? = some c → c.isWhitespace = false) ∧
        (∀ c, cur.getLast? = some c → c.isWhitespace = false))) →
      ((wrapAux widthF maxW ws cur).map splitWords).flatten =
        splitWords cur ++ ws := by
  intro ws
  induction ws with
  | nil =>
    intro cur _ hcur
    by_cases hc : cur = []
    · subst hc
      simp [wrapAux, splitWords_nil]
    · simp [wrapAux, hc]
  | cons w ws ih =>
    intro cur hws hcur
    obtain ⟨hwne, hwchars⟩ := hws w (List.mem_cons_self w ws)
    have hws' : ∀ x ∈ ws, x ≠ [] ∧ ∀ c ∈ x, c.isWhitespace = false :=
      fun x hx => hws x (List.mem_cons_of_mem w hx)
    have hwgood : (∀ c, w.head? = some c → c.isWhitespace = false) ∧
        (∀ c, w.getLast? = some c → c.isWhitespace = false) :=
      ⟨fun c hc => hwchars c (mem_of_head?_eq hc),
       fun c hc => hwchars c (mem_of_getLast?_eq hc)⟩
    have hwstrip : stripChars w = w := stripChars_eq_self w hwgood.1 hwgood.2
    by_cases hc : cur = []
    · subst hc
      have hcand : stripChars (([] : List Char) ++ ' ' :: w) = w := by
        rw [List.nil_append, stripChars_space_cons, hwstrip]
      have hihw := ih w hws' (Or.inr hwgood)
      rw [splitWords_word w hwne hwchars] at hihw
      simp only [wrapAux, hcand]
      split
      · rw [hihw, splitWords_nil]
        simp
      · rw [if_true, hihw, splitWords_nil]
        simp
    · rcases hcur with rfl | ⟨hh, hl⟩
      · exact absurd rfl hc
      · have hlastw : (' ' :: w).getLast? = w.getLast? := by
          rw [show ' ' :: w = [' '] ++ w from rfl]
          exact List.getLast?_append_of_ne_nil [' '] hwne
        have hcand : stripChars (cur ++ ' ' :: w) = cur ++ ' ' :: w := by
          refine stripChars_eq_self _ ?_ ?_
          · intro x hx
            rw [List.head?_append_of_ne_nil cur hc] at hx
            exact hh x hx
          · intro x hx
            rw [List.getLast?_append_of_ne_nil cur (List.cons_ne_nil ' ' w),
              hlastw] at hx
            exact hwgood.2 x hx
        have hsplit : splitWords (cur ++ ' ' :: w) = splitWords cur ++ [w] := by
          unfold splitWords
          rw [splitWordsAux_append w ' ' (by decide) cur []]
          rw [show splitWordsAux w [] = splitWords w from rfl,
            splitWords_word w hwne hwchars]
        have huf : wrapAux widthF maxW (w :: ws) cur =
            if widthF (stripChars (cur ++ ' ' :: w)) ≤ maxW
            then wrapAux widthF maxW ws (stripChars (cur ++ ' ' :: w))
            else if cur = [] then wrapAux widthF maxW ws w
            else cur :: wrapAux widthF maxW ws w := rfl
        rw [huf, hcand]
        by_cases hfit : widthF (cur ++ ' ' :: w) ≤ maxW
        · rw [if_pos hfit]
          have hgood2 : (∀ c, (cur ++ ' ' :: w).head? = some c →
              c.isWhitespace = false) ∧
              (∀ c, (cur ++ ' ' :: w).getLast? = some c → c.isWhitespace = false) := by
            constructor
            · intro x hx
              rw [List.head?_append_of_ne_nil cur hc] at hx
              exact hh x hx
            · intro x hx
              rw [List.getLast?_append_of_ne_nil cur (List.cons_ne_nil ' ' w),
                hlastw] at hx
              exact hwgood.2 x hx
          rw [ih (cur ++ ' ' :: w) hws' (Or.inr hgood2), hsplit]
          simp
        · rw [if_neg hfit, if_neg hc]
          have hihw := ih w hws' (Or.inr hwgood)
          rw [splitWords_word w hwne hwchars] at hihw
          simp only [List.map_cons, List.flatten_cons, hihw]
          rfl

/-- Every line `_wrap_text`'s loop emits is either a single source word or
a measured candidate that fit within `maxW`. -/
theorem wrapAux_lines (widthF : List Char → Int) (maxW : Int)
    (allW : List (List Char)) :
    ∀ (ws : List (List Char)) (cur : List Char),
      (∀ w ∈ ws, w ∈ allW) →
      (cur = [] ∨ cur ∈ allW ∨ widthF cur ≤ maxW) →
      ∀ line ∈ wrapAux widthF maxW ws cur,
        line ∈ allW ∨ widthF line ≤ maxW := by
  intro ws
  induction ws with
  | nil =>
    intro cur _ hcur line hline
    simp only [wrapAux] at hline
    split at hline
    · simp at hline
    · next hcne =>
      simp only [List.mem_singleton] at hline
      subst hline
      rcases hcur with rfl | h | h
      · exact absurd rfl hcne
      · exact Or.inl h
      · exact Or.inr h
  | cons w ws ih =>
    intro cur hsub hcur line hline
    have hw : w ∈ allW := hsub w (List.mem_cons_self w ws)
    have hsub' : ∀ x ∈ ws, x ∈ allW := fun x hx => hsub x (List.mem_cons_of_mem w hx)
    simp only [wrapAux] at hline
    split at hline
    · next hfit => exact ih _ hsub' (Or.inr (Or.inr hfit)) line hline
    · split at hline
      · exact ih _ hsub' (Or.inr (Or.inl hw)) line hline
      · next hcne =>
        rcases List.mem_cons.mp hline with rfl | hline'
        · rcases hcur with rfl | h | h
          · exact absurd rfl hcne
          · exact Or.inl h
          · exact Or.inr h
        · exact ih _ hsub' (Or.inr (Or.inl hw)) line hline'

/-- C5: the words of `_wrap_text`'s returned lines, in order, are exactly
the words of the input (none dropped, duplicated or split mid-word); the
result is never empty; the empty input yields the single empty line; and,
when the input has words at all, every returned line is a single source
word (the only way a line can exceed `maxW`) or fits within `maxW`. -/
theorem wrap_text_coverage (widthF : List Char → Int) (text : List Char)
    (maxW : Int) :
    ((wrap_text widthF text maxW).map splitWords).flatten = splitWords text
    ∧ wrap_text widthF text maxW ≠ []
    ∧ (text = [] → wrap_text widthF text maxW = [[]])
    ∧ (splitWords text ≠ [] → ∀ line ∈ wrap_text widthF text maxW,
        line ∈ splitWords text ∨ widthF line ≤ maxW) := by
  have hgood : ∀ w ∈ splitWords text, w ≠ [] ∧ ∀ c ∈ w, c.isWhitespace = false :=
    splitWords_goodWords text [] (by simp)
  have hA := wrapAux_words widthF maxW (splitWords text) [] hgood (Or.inl rfl)
  rw [splitWords_nil, List.nil_append] at hA
  refine ⟨?_, wrap_text_ne_nil widthF text maxW, ?_, ?_⟩
  · simp only [wrap_text]
    split
    · next hempty => simp [hempty]
    · next hne2 =>
      split
      · next hl =>
        rw [hl] at hA
        simp at hA
        exact absurd hA hne2
      · exact hA
  · intro h
    subst h
    simp [wrap_text, splitWords_nil]
  · intro hne line hline
    have hlne : wrapAux widthF maxW (splitWords text) [] ≠ [] := by
      intro h
      rw [h] at hA
      simp at hA
      exact hne hA
    rw [wrap_text] at hline
    rw [if_neg hne, if_neg hlne] at hline
    exact wrapAux_lines widthF maxW (splitWords text) (splitWords text) []
      (fun x hx => hx) (Or.inl rfl) line hline

/-! ### Claim C4: the background estimator -/

/-- The code's `sorted(l)[len(l) // 2]` equals the spec's middle element
of the insertion-sorted list: sorting is sorting. -/
theorem codeMedian_eq_medianSpec (l : List Nat) : codeMedian l = medianSpec l := by
  unfold codeMedian medianSpec
  rw [List.mergeSort_eq_insertionSort]

/-- C4: for every rectangle that clips to empty, `_sample_background`
returns exactly opaque white; for every other rectangle it returns the
four per-channel medians (R, G, B, A independently) of the up-to-4×4
corner window anchored at the clipped rectangle's top-left corner. -/
theorem sample_background_median_spec (img : Canvas) (rect : Rect) :
    (((clipToCanvas rect img.width img.height).2.2.1 ≤
          (clipToCanvas rect img.width img.height).1 ∨
        (clipToCanvas rect img.width img.height).2.2.2 ≤
          (clipToCanvas rect img.width img.height).2.1) →
      sample_background img rect = (255, 255, 255, 255))
    ∧ (¬((clipToCanvas rect img.width img.height).2.2.1 ≤
            (clipToCanvas rect img.width img.height).1 ∨
          (clipToCanvas rect img.width img.height).2.2.2 ≤
            (clipToCanvas rect img.width img.height).2.1) →
      sample_background img rect =
        (medianSpec ((cornerSample img rect).map fun p => p.1),
         medianSpec ((cornerSample img rect).map fun p => p.2.1),
         medianSpec ((cornerSample img rect).map fun p => p.2.2.1),
         medianSpec ((cornerSample img rect).map fun p => p.2.2.2))) := by
  constructor
  · intro hdeg
    have hdeg' : min img.width rect.2.2.1 ≤ max 0 rect.1 ∨
        min img.height rect.2.2.2 ≤ max 0 rect.2.1 := by
      simpa [clipToCanvas] using hdeg
    simp only [sample_background]
    rw [if_pos hdeg']
  · intro hnd
    have hnd' : ¬(min img.width rect.2.2.1 ≤ max 0 rect.1 ∨
        min img.height rect.2.2.2 ≤ max 0 rect.2.1) := by
      simpa [clipToCanvas] using hnd
    have hpix : (List.range (min (min img.width rect.2.2.1 - max 0 rect.1) 4).toNat).flatMap
        (fun (px : Nat) =>
          (List.range (min (min img.height rect.2.2.2 - max 0 rect.2.1) 4).toNat).map
          fun (py : Nat) =>
            img.pix (max 0 rect.1 + (px : Int)) (max 0 rect.2.1 + (py : Int))) =
        cornerSample img rect := by
      unfold cornerSample clipToCanvas
      rw [min_comm (min img.width rect.2.2.1 - max 0 rect.1) 4,
        min_comm (min img.height rect.2.2.2 - max 0 rect.2.1) 4,
        List.flatMap_def]
    simp only [sample_background]
    rw [if_neg hnd', hpix]
    simp only [codeMedian_eq_medianSpec]
